import Mathlib

/-!
Verification of the DeepVoice3 decoder/attention core
(file `deepvoice3_pytorch/deepvoice3.py`), shallowly embedded in Lean.

Tensors are embedded as functions `Fin b → Fin t → ℚ` (or `→ ℝ` where the
source computes with `exp`, `sin`, `cos`), frames as `List ℚ`, and the
stateful decoder as explicit state passing.
-/

set_option maxHeartbeats 1000000

namespace DeepVoice3

/-! ### AttentionLayer.forward: masking and softmax (lines 207-235)

`x.data.masked_fill_(mask, -float("inf"))` followed by `F.softmax` over the
last dim.  A score of `-inf` is embedded as `none : Option ℝ`; its
exponential is `0`, which is exactly what `softmax` computes at a
`-inf` entry. -/

/-- Scores after `masked_fill_(mask, -inf)` (line 217): entry `(q, j)` is
`-inf` (embedded as `none`) when `mask j` holds, else the raw score. -/
def maskedScores {tq tt : ℕ} (scores : Fin tq → Fin tt → ℝ) (mask : Fin tt → Bool) :
    Fin tq → Fin tt → Option ℝ :=
  fun q j => if mask j then none else some (scores q j)

/-- Exponential extended to `-inf` scores: `exp (-inf) = 0`. -/
noncomputable def expNeg (v : Option ℝ) : ℝ :=
  v.elim 0 Real.exp

/-- One row of `F.softmax(x, dim=1)` (lines 220-222). -/
noncomputable def softmaxRow {tt : ℕ} (v : Fin tt → Option ℝ) : Fin tt → ℝ :=
  fun j => expNeg (v j) / ∑ j' : Fin tt, expNeg (v j')

/-- `attn_scores` returned by `AttentionLayer.forward` when a mask is given
(line 223): row-wise softmax of the masked scores.  It is captured before
the dropout of line 225, so the returned alignment is exactly this. -/
noncomputable def attnScores {tq tt : ℕ} (scores : Fin tq → Fin tt → ℝ)
    (mask : Fin tt → Bool) : Fin tq → Fin tt → ℝ :=
  fun q => softmaxRow (maskedScores scores mask q)

/-! ### Incremental alignment averaging (Decoder._incremental_forward, lines 461-483)

The per-step loop over `zip(projections, convolutions, attention)` keeps a
running `ave_alignment`; a layer without attention (`None`) is skipped.  The
source reads

    if ave_alignment is None: ave_alignment = alignment
    else: ave_alignment = ave_alignment + ave_alignment

and afterwards `ave_alignment.div_(len(self.attention))`.  An alignment
tensor is embedded as a single `ℚ` (all operations are elementwise). -/

/-- The fold of lines 472-478: `none` in the layer list is a decoder stage
whose `attention` entry is `None`; the accumulator mirrors `ave_alignment`.
Note the second-accumulation branch adds the accumulator to itself, exactly
as the source does. -/
def aveAlignmentFold : Option ℚ → List (Option ℚ) → Option ℚ
  | acc, [] => acc
  | acc, none :: rest => aveAlignmentFold acc rest
  | none, some a :: rest => aveAlignmentFold (some a) rest
  | some v, some _ :: rest => aveAlignmentFold (some (v + v)) rest

/-- The per-step alignment returned by `_incremental_forward`
(`ave_alignment.div_(len(self.attention))`, line 483): the fold result
divided by the total number of decoder stages. -/
def incrementalAveAlignment (layers : List (Option ℚ)) : Option ℚ :=
  (aveAlignmentFold none layers).map (fun v => v / (layers.length : ℚ))

/-- Sum of the alignments of the stages that have an attention layer. -/
def alignmentsSum : List (Option ℚ) → ℚ
  | [] => 0
  | none :: rest => alignmentsSum rest
  | some a :: rest => a + alignmentsSum rest

/-- The arithmetic mean the claim describes: each attention layer's
alignment contributes once to the sum, which is divided by the number of
layers. -/
def claimedMeanAlignment (layers : List (Option ℚ)) : ℚ :=
  alignmentsSum layers / (layers.length : ℚ)

/-- C1: with two attention layers whose current-step alignments are `0` and
`1`, the code's accumulation `ave_alignment = ave_alignment + ave_alignment`
drops the second layer's alignment and returns `0`, while the arithmetic
mean over the layers is `1/2`.  This evaluates the code at the failing
input and exhibits the divergence from the claimed (and spec-intended)
average. -/
theorem C1_ave_alignment_bug :
    incrementalAveAlignment [some 0, some 1] = some 0 ∧
    claimedMeanAlignment [some 0, some 1] = 1 / 2 ∧
    incrementalAveAlignment [some 0, some 1] ≠ some (claimedMeanAlignment [some 0, some 1]) := by
  refine ⟨?_, ?_, ?_⟩ <;>
    norm_num [incrementalAveAlignment, aveAlignmentFold, claimedMeanAlignment,
      alignmentsSum, Option.some_inj]

/-- C2: for any attention invocation carrying a padding mask (as the
teacher-forced decoder does, lines 320-323 and 361) with at least one
unmasked position in the row, the returned alignment weights are exactly
`0` at every masked position and sum to `1` across the text-time axis.
Both decoder modes call the same `AttentionLayer.forward`, so the property
is mode-independent. -/
theorem C2_mask_softmax {tq tt : ℕ} (scores : Fin tq → Fin tt → ℝ)
    (mask : Fin tt → Bool) (q : Fin tq) (hvalid : ∃ j, mask j = false) :
    (∀ j, mask j = true → attnScores scores mask q j = 0) ∧
    (∑ j : Fin tt, attnScores scores mask q j) = 1 := by
  obtain ⟨j0, hj0⟩ := hvalid
  have hnonneg : ∀ j : Fin tt, 0 ≤ expNeg (maskedScores scores mask q j) := by
    intro j
    by_cases h : mask j = true
    · simp [maskedScores, expNeg, h]
    · simp only [Bool.not_eq_true] at h
      simp [maskedScores, expNeg, h, (Real.exp_pos _).le]
  have hpos : 0 < ∑ j' : Fin tt, expNeg (maskedScores scores mask q j') := by
    refine Finset.sum_pos' (fun j _ => hnonneg j) ⟨j0, Finset.mem_univ _, ?_⟩
    simp [maskedScores, expNeg, hj0, Real.exp_pos]
  constructor
  · intro j hj
    simp [attnScores, softmaxRow, maskedScores, hj, expNeg]
  · simp only [attnScores, softmaxRow]
    rw [← Finset.sum_div]
    exact div_self (ne_of_gt hpos)

/-- Concrete scores for the C2 witness: one query step, two text positions. -/
def witnessScores : Fin 1 → Fin 2 → ℝ :=
  fun _ _ => 0

/-- Concrete padding mask for the C2 witness: the second text position is
padding. -/
def witnessMask : Fin 2 → Bool :=
  fun j => decide (j = 1)

/-- Witness for C2 at a concrete input: two text positions, the second one
masked, constant scores. -/
theorem C2_mask_softmax_witness :
    (∃ j : Fin 2, witnessMask j = false) ∧
    ((∀ j, witnessMask j = true → attnScores witnessScores witnessMask 0 j = 0) ∧
      (∑ j : Fin 2, attnScores witnessScores witnessMask 0 j) = 1) :=
  ⟨⟨0, by decide⟩, C2_mask_softmax witnessScores witnessMask 0 ⟨0, by decide⟩⟩

/-! ### position_encoding_init (lines 238-248)

The raw table entry for `pos ≠ 0` is `pos / 10000 ** (2 * i / d_pos_vec)`
with `i` the raw dimension index (`for i in range(d_pos_vec)`, Python float
division); `sin` is then applied on even dimension indices and `cos` on odd
ones, for rows `1:` only; row 0 stays the zero vector. -/

/-- The angle `pos / np.power(10000, 2 * i / d_pos_vec)` of line 243; `i`
is the raw dimension index. -/
noncomputable def positionEncAngle (d pos i : ℕ) : ℝ :=
  (pos : ℝ) / (10000 : ℝ) ^ ((2 * (i : ℝ)) / (d : ℝ))

/-- `position_encoding_init(n_position, d_pos_vec)` (lines 238-248). -/
noncomputable def position_encoding_init (n_position d : ℕ) :
    Fin n_position → Fin d → ℝ :=
  fun pos i =>
    if pos.val = 0 then 0
    else if i.val % 2 = 0 then Real.sin (positionEncAngle d pos.val i.val)
    else Real.cos (positionEncAngle d pos.val i.val)

/-- The table the claim describes, word for word: at even dimension index
`2i` the entry is `sin(pos / 10000 ^ (2 i / d))` and at odd index `2i + 1`
it is `cos(pos / 10000 ^ (2 i / d))`, with `i` the half-index (`i = j / 2`
for dimension index `j`). -/
noncomputable def positionEncodingClaimTable (n_position d : ℕ) :
    Fin n_position → Fin d → ℝ :=
  fun pos i =>
    if pos.val = 0 then 0
    else if i.val % 2 = 0 then
      Real.sin ((pos.val : ℝ) / (10000 : ℝ) ^ ((2 * ((i.val / 2 : ℕ) : ℝ)) / (d : ℝ)))
    else
      Real.cos ((pos.val : ℝ) / (10000 : ℝ) ^ ((2 * ((i.val / 2 : ℕ) : ℝ)) / (d : ℝ)))

/-- C6 counterexample: at `(n_position, d) = (2, 2)`, row 1, dimension
index 1, the code computes `cos (1 / 10000)` (exponent `2 * 1 / 2 = 1`,
raw dimension index), while the claimed formula gives `cos 1` (exponent
`2 * 0 / 2 = 0`, half-index), and the two differ. -/
theorem C6_counterexample :
    position_encoding_init 2 2 ⟨1, by omega⟩ ⟨1, by omega⟩ ≠
      positionEncodingClaimTable 2 2 ⟨1, by omega⟩ ⟨1, by omega⟩ := by
  unfold position_encoding_init positionEncodingClaimTable positionEncAngle
  norm_num
  intro hEq
  have h1 : (1 / 10000 : ℝ) ∈ Set.Icc (0 : ℝ) Real.pi := by
    constructor
    · norm_num
    · have := Real.pi_gt_three; linarith
  have h2 : (1 : ℝ) ∈ Set.Icc (0 : ℝ) Real.pi := by
    constructor
    · norm_num
    · have := Real.pi_gt_three; linarith
  have := Real.injOn_cos h1 h2 (by simpa using hEq)
  norm_num at this

/-- C6 (amended): the table is a deterministic function of its arguments,
row 0 is the zero vector, and for `pos ≥ 1` the entry at even dimension
index `2k` is `sin(pos / 10000 ^ (2 (2k) / d))` and at odd index `2k + 1`
is `cos(pos / 10000 ^ (2 (2k + 1) / d))` — the exponent uses the full
dimension index, not the half-index of the original claim. -/
theorem C6_position_encoding (n d : ℕ) (pos : Fin n) (i : Fin d) (k : ℕ)
    (hpos : 0 < pos.val) :
    position_encoding_init n d = position_encoding_init n d ∧
    (∀ p : Fin n, p.val = 0 → ∀ j : Fin d, position_encoding_init n d p j = 0) ∧
    (i.val = 2 * k →
      position_encoding_init n d pos i =
        Real.sin ((pos.val : ℝ) / (10000 : ℝ) ^ ((2 * (2 * (k : ℝ))) / (d : ℝ)))) ∧
    (i.val = 2 * k + 1 →
      position_encoding_init n d pos i =
        Real.cos ((pos.val : ℝ) / (10000 : ℝ) ^ ((2 * (2 * (k : ℝ) + 1)) / (d : ℝ)))) := by
  have h0 : pos.val ≠ 0 := Nat.pos_iff_ne_zero.mp hpos
  refine ⟨rfl, ?_, ?_, ?_⟩
  · intro p hp j
    unfold position_encoding_init
    rw [if_pos hp]
  · intro hik
    unfold position_encoding_init positionEncAngle
    rw [if_neg h0, if_pos (by omega : i.val % 2 = 0)]
    have hc : ((i.val : ℕ) : ℝ) = 2 * (k : ℝ) := by
      rw [hik]; push_cast; ring
    rw [hc]
  · intro hik
    unfold position_encoding_init positionEncAngle
    rw [if_neg h0, if_neg (by omega : ¬ i.val % 2 = 0)]
    have hc : ((i.val : ℕ) : ℝ) = 2 * (k : ℝ) + 1 := by
      rw [hik]; push_cast; ring
    rw [hc]

/-- Witness for C6 (amended) at `(n, d, pos, i, k) = (2, 2, 1, 0, 0)`. -/
theorem C6_position_encoding_witness :
    0 < (⟨1, by decide⟩ : Fin 2).val ∧
    (position_encoding_init 2 2 = position_encoding_init 2 2 ∧
      (∀ p : Fin 2, p.val = 0 → ∀ j : Fin 2, position_encoding_init 2 2 p j = 0) ∧
      ((⟨0, by omega⟩ : Fin 2).val = 2 * 0 →
        position_encoding_init 2 2 ⟨1, by omega⟩ ⟨0, by omega⟩ =
          Real.sin (((⟨1, by omega⟩ : Fin 2).val : ℝ) /
            (10000 : ℝ) ^ ((2 * (2 * ((0 : ℕ) : ℝ))) / ((2 : ℕ) : ℝ)))) ∧
      ((⟨0, by omega⟩ : Fin 2).val = 2 * 0 + 1 →
        position_encoding_init 2 2 ⟨1, by omega⟩ ⟨0, by omega⟩ =
          Real.cos (((⟨1, by omega⟩ : Fin 2).val : ℝ) /
            (10000 : ℝ) ^ ((2 * (2 * ((0 : ℕ) : ℝ) + 1)) / ((2 : ℕ) : ℝ))))) :=
  ⟨by decide, C6_position_encoding 2 2 ⟨1, by omega⟩ ⟨0, by omega⟩ 0 (by decide)⟩

/-! ### get_mask_from_lengths (lines 186-195)

A `(batch, max_time)` byte mask starts all zero; the loop
`for idx, l in enumerate(memory_lengths): mask[idx][:l] = 1` sets each
row's first `l` entries, and the function returns the complement `~mask`. -/

/-- One loop body `mask[idx][:l] = 1`: set row `idx`, columns below `l`. -/
def setRowOnes (b T : ℕ) (m : Fin b → Fin T → Bool) (idx l : ℕ) :
    Fin b → Fin T → Bool :=
  fun i j => if i.val = idx ∧ j.val < l then true else m i j

/-- The loop `for idx, l in enumerate(memory_lengths)` with the running
index threaded explicitly. -/
def maskFillFrom (b T : ℕ) : ℕ → List ℕ → (Fin b → Fin T → Bool) → Fin b → Fin T → Bool
  | _, [], m => m
  | idx, l :: rest, m => maskFillFrom b T (idx + 1) rest (setRowOnes b T m idx l)

/-- `get_mask_from_lengths(memory, memory_lengths)` (lines 186-195): the
complement of the filled mask. -/
def get_mask_from_lengths (b T : ℕ) (lengths : List ℕ) : Fin b → Fin T → Bool :=
  fun i j => ! maskFillFrom b T 0 lengths (fun _ _ => false) i j

/-- Closed form of the fill loop: entry `(i, j)` is set exactly when some
enumerated pair `(idx, l)` has `idx = i` and `j < l`. -/
theorem maskFillFrom_eq (b T : ℕ) (L : List ℕ) :
    ∀ (n : ℕ) (m : Fin b → Fin T → Bool) (i : Fin b) (j : Fin T),
      (maskFillFrom b T n L m i j = true ↔
        m i j = true ∨
          (n ≤ i.val ∧ i.val - n < L.length ∧ j.val < L.getD (i.val - n) 0)) := by
  induction L with
  | nil =>
    intro n m i j
    simp [maskFillFrom]
  | cons l rest ih =>
    intro n m i j
    simp only [maskFillFrom, List.length_cons]
    rw [ih (n + 1) (setRowOnes b T m n l) i j]
    unfold setRowOnes
    rcases Nat.lt_trichotomy i.val n with hlt | heq | hgt
    · rw [if_neg (by omega : ¬(i.val = n ∧ j.val < l))]
      constructor
      · rintro (hm | hrest)
        · exact Or.inl hm
        · exact absurd hrest.1 (by omega)
      · rintro (hm | hrest)
        · exact Or.inl hm
        · exact absurd hrest.1 (by omega)
    · have hzero : i.val - n = 0 := by omega
      rw [hzero, List.getD_cons_zero]
      by_cases hj : j.val < l
      · rw [if_pos ⟨heq, hj⟩]
        constructor
        · intro _
          exact Or.inr ⟨by omega, by omega, hj⟩
        · intro _
          exact Or.inl rfl
      · rw [if_neg (fun hand => hj hand.2)]
        constructor
        · rintro (hm | hrest)
          · exact Or.inl hm
          · exact absurd hrest.1 (by omega)
        · rintro (hm | hrest)
          · exact Or.inl hm
          · exact absurd hrest.2.2 hj
    · rw [if_neg (by omega : ¬(i.val = n ∧ j.val < l))]
      have hsub : i.val - n = (i.val - (n + 1)) + 1 := by omega
      rw [hsub, List.getD_cons_succ]
      constructor
      · rintro (hm | ⟨_, hb, hc⟩)
        · exact Or.inl hm
        · exact Or.inr ⟨by omega, by omega, hc⟩
      · rintro (hm | ⟨_, hb, hc⟩)
        · exact Or.inl hm
        · exact Or.inr ⟨by omega, by omega, hc⟩

/-- C10: with one length per batch row, the returned mask is true at
`(i, j)` exactly when `j ≥ lengths[i]`, i.e. precisely at the padding
positions past row `i`'s true length. -/
theorem C10_mask_from_lengths (b T : ℕ) (lengths : List ℕ)
    (h : lengths.length = b) (i : Fin b) (j : Fin T) :
    (get_mask_from_lengths b T lengths i j = true ↔ lengths.getD i.val 0 ≤ j.val) := by
  have hi : i.val < lengths.length := by rw [h]; exact i.isLt
  have hfill := maskFillFrom_eq b T lengths 0 (fun _ _ => false) i j
  simp only [Nat.sub_zero, Nat.zero_le, true_and] at hfill
  unfold get_mask_from_lengths
  rw [Bool.not_eq_true']
  constructor
  · intro hfalse
    by_contra hcon
    have : maskFillFrom b T 0 lengths (fun _ _ => false) i j = true :=
      hfill.mpr (Or.inr ⟨hi, by omega⟩)
    rw [this] at hfalse
    simp at hfalse
  · intro hge
    by_contra hcon
    have htrue : maskFillFrom b T 0 lengths (fun _ _ => false) i j = true := by
      cases hb : maskFillFrom b T 0 lengths (fun _ _ => false) i j
      · exact absurd hb hcon
      · rfl
    rcases hfill.mp htrue with hm | ⟨_, hlt⟩
    · simp at hm
    · omega

/-- Witness for C10 at `b = 2`, `T = 3`, `lengths = [1, 3]`, `(i, j) = (0, 2)`. -/
theorem C10_mask_witness :
    ([1, 3] : List ℕ).length = 2 ∧
    (get_mask_from_lengths 2 3 [1, 3] ⟨0, by omega⟩ ⟨2, by omega⟩ = true ↔
      ([1, 3] : List ℕ).getD (⟨0, by omega⟩ : Fin 2).val 0 ≤ (⟨2, by omega⟩ : Fin 3).val) :=
  ⟨rfl, C10_mask_from_lengths 2 3 [1, 3] rfl ⟨0, by omega⟩ ⟨2, by omega⟩⟩

/-! ### Decoder incremental-inference state (lines 299, 407-425, 508-517)

The decoder instance carries `_is_inference_incremental` and one input
buffer per causal convolution (`conv.clear_buffer()` empties it).
`_start_incremental_inference` asserts the flag is not already set (the
assert runs before any mutation), sets it, and calls
`start_fresh_sequence`, which clears every convolution buffer when the
flag is set.  `_stop_incremental_inference` only restores `forward` and
resets the flag — it does not touch the buffers. -/

structure DecoderState where
  is_inference_incremental : Bool
  buffers : List (List ℚ)
  deriving DecidableEq

/-- `start_fresh_sequence` (lines 508-517): clears all convolution buffers,
but only when incremental inference is active. -/
def start_fresh_sequence (s : DecoderState) : DecoderState :=
  if s.is_inference_incremental then
    { s with buffers := s.buffers.map (fun _ => []) }
  else s

/-- `_start_incremental_inference` (lines 407-419): the assert of lines
408-409 fails (`none`) when incremental inference is already active,
before any state is mutated; otherwise the flag is set and a fresh
sequence is started. -/
def start_incremental_inference (s : DecoderState) : Option DecoderState :=
  if s.is_inference_incremental then none
  else some (start_fresh_sequence { s with is_inference_incremental := true })

/-- `_stop_incremental_inference` (lines 421-425): restores the original
forward and resets the flag; the buffers are left as they are. -/
def stop_incremental_inference (s : DecoderState) : DecoderState :=
  { s with is_inference_incremental := false }

/-- C5 counterexample: exiting incremental inference on a state whose
convolution buffer still holds a frame leaves that buffer intact —
`_stop_incremental_inference` clears nothing. -/
theorem C5_counterexample :
    ¬ ((stop_incremental_inference (DecoderState.mk true [[(1 : ℚ)]])).buffers.all
        List.isEmpty = true) := by
  decide

/-- C5 (amended): buffers are cleared at the start of each incremental
inference, not on exit.  Whenever `_start_incremental_inference` succeeds,
the state it produces has every convolution buffer empty — so no buffered
frames leak into the generation that begins — while
`_stop_incremental_inference` merely resets the active flag and leaves the
buffers untouched. -/
theorem C5_buffers_cleared_on_start (s s' : DecoderState)
    (h : start_incremental_inference s = some s') :
    s'.buffers.all List.isEmpty = true ∧
    s'.is_inference_incremental = true ∧
    (stop_incremental_inference s').buffers = s'.buffers ∧
    (stop_incremental_inference s').is_inference_incremental = false := by
  unfold start_incremental_inference at h
  by_cases hs : s.is_inference_incremental
  · rw [if_pos hs] at h
    exact absurd h (by simp)
  · rw [if_neg hs] at h
    have hs' : s' = start_fresh_sequence { s with is_inference_incremental := true } :=
      (Option.some_inj.mp h).symm
    subst hs'
    unfold start_fresh_sequence
    refine ⟨?_, by simp [stop_incremental_inference], rfl, rfl⟩
    simp [List.all_eq_true]

/-- Witness for C5 (amended): starting incremental inference on an idle
decoder with two dirty buffers empties both. -/
theorem C5_buffers_witness :
    start_incremental_inference (DecoderState.mk false [[(1 : ℚ)], [(2 : ℚ), (3 : ℚ)]]) =
      some (DecoderState.mk true [[], []]) ∧
    ((DecoderState.mk true ([[], []] : List (List ℚ))).buffers.all List.isEmpty = true ∧
      (DecoderState.mk true ([[], []] : List (List ℚ))).is_inference_incremental = true ∧
      (stop_incremental_inference (DecoderState.mk true ([[], []] : List (List ℚ)))).buffers =
        (DecoderState.mk true ([[], []] : List (List ℚ))).buffers ∧
      (stop_incremental_inference
          (DecoderState.mk true ([[], []] : List (List ℚ)))).is_inference_incremental = false) :=
  ⟨by decide,
    C5_buffers_cleared_on_start (DecoderState.mk false [[(1 : ℚ)], [(2 : ℚ), (3 : ℚ)]])
      (DecoderState.mk true [[], []]) (by decide)⟩

/-- C8: starting incremental inference while a generation is already
active fails immediately — the assert of lines 408-409 fires before any
generation state is mutated, so no new state is produced (`none`), and a
retry on the unchanged state fails the same way. -/
theorem C8_reentrant_start_fails (s : DecoderState)
    (h : s.is_inference_incremental = true) :
    start_incremental_inference s = none := by
  unfold start_incremental_inference
  rw [if_pos h]

/-- Witness for C8 on a concrete active decoder state. -/
theorem C8_reentrant_witness :
    (DecoderState.mk true [[(1 : ℚ)]]).is_inference_incremental = true ∧
    start_incremental_inference (DecoderState.mk true [[(1 : ℚ)]]) = none :=
  ⟨rfl, C8_reentrant_start_fails (DecoderState.mk true [[(1 : ℚ)]]) rfl⟩

/-! ### Caller-visible encoder output across a decoder call (lines 326-328, 433-435)

Both decoder forwards execute `keys += text_pos_embed` — an in-place
`add_` on the caller's keys tensor (in the teacher-forced path only when
`text_positions` is given; in the incremental path unconditionally).  The
values tensor is only ever read (`torch.bmm(x, values)`).  A tensor is
embedded as `Fin b → Fin t → ℚ`; the functions below give the contents of
the caller's tensors after the call. -/

/-- Caller's keys after `Decoder._incremental_forward` (line 435):
`keys += text_pos_embed` mutates them in place. -/
def incremental_forward_keys_after (b t : ℕ) (keys e : Fin b → Fin t → ℚ) :
    Fin b → Fin t → ℚ :=
  fun i j => keys i j + e i j

/-- Caller's keys after the teacher-forced `Decoder.forward`
(lines 326-328): mutated in place exactly when `text_positions` (hence a
positional embedding `e`) is given. -/
def decoder_forward_keys_after (b t : ℕ) (keys : Fin b → Fin t → ℚ)
    (e : Option (Fin b → Fin t → ℚ)) : Fin b → Fin t → ℚ :=
  match e with
  | none => keys
  | some e => fun i j => keys i j + e i j

/-- Caller's values after either decoder forward: values are only read. -/
def decoder_forward_values_after (b t : ℕ) (values : Fin b → Fin t → ℚ) :
    Fin b → Fin t → ℚ :=
  values

/-- C4 counterexample: an incremental decoder call with a nonzero text
positional embedding changes the caller's keys tensor. -/
theorem C4_counterexample :
    incremental_forward_keys_after 1 1 (fun _ _ => 0) (fun _ _ => 1) ≠
      (fun _ _ => (0 : ℚ)) := by
  intro h
  have h00 := congrFun (congrFun h 0) 0
  unfold incremental_forward_keys_after at h00
  norm_num at h00

/-- C4 (amended): the values tensor is read-only across any decoder call,
and so are the keys of a teacher-forced call without `text_positions`; but
when a text positional embedding `e` is added (always in incremental mode,
and in teacher-forced mode when `text_positions` is given), the caller's
keys are mutated in place to `keys + e`, and they survive unchanged only
when `e` is identically zero. -/
theorem C4_keys_mutation (b t : ℕ) (keys values e : Fin b → Fin t → ℚ) :
    (incremental_forward_keys_after b t keys e = keys ↔ e = fun _ _ => 0) ∧
    decoder_forward_keys_after b t keys none = keys ∧
    (decoder_forward_keys_after b t keys (some e) = keys ↔ e = fun _ _ => 0) ∧
    decoder_forward_values_after b t values = values := by
  have hiff : (fun i j => keys i j + e i j) = keys ↔ e = fun _ _ => 0 := by
    constructor
    · intro h
      funext i j
      have hij := congrFun (congrFun h i) j
      have : keys i j + e i j = keys i j := hij
      linarith
    · intro h
      subst h
      funext i j
      simp
  exact ⟨hiff, rfl, hiff, rfl⟩

/-! ### The incremental generation loop (Decoder._incremental_forward, lines 443-496)

The loop keeps a 0-based counter `t`.  Each iteration produces one output
frame, increments `t`, and then breaks when `t > 10` and the frame just
produced is near-silent (`is_end_of_frames`), or force-breaks when
`t > max_decoder_steps` (`self.max_decoder_steps = 200`, line 300). -/

/-- `is_end_of_frames(output, eps=0.2)` (lines 520-521):
`(output.data <= eps).all()`. -/
def is_end_of_frames (output : List ℚ) (eps : ℚ := 1 / 5) : Bool :=
  output.all (fun v => v ≤ eps)

/-- Number of frames the while-loop of lines 447-496 produces when started
with counter value `t`: one frame per iteration; after the increment the
loop breaks on `t > 10 ∧ is_end_of_frames output` (where `output` is the
frame produced with the old counter value) or on `t > max_decoder_steps`.
`isEnd u` abstracts `is_end_of_frames` of the frame produced at counter
value `u`. -/
def loopCount (isEnd : ℕ → Bool) (maxSteps : ℕ) (t : ℕ) : ℕ :=
  if h : (10 < t + 1 ∧ isEnd t = true) ∨ maxSteps < t + 1 then 1
  else 1 + loopCount isEnd maxSteps (t + 1)
termination_by maxSteps + 1 - t
decreasing_by
  rw [not_or] at h
  omega

/-- Total number of frames of one `_incremental_forward` call: the loop
starts at `t = 0`. -/
def numGeneratedFrames (isEnd : ℕ → Bool) (maxSteps : ℕ) : ℕ :=
  loopCount isEnd maxSteps 0

/-- The loop started at counter `t ≤ maxSteps` runs at most
`maxSteps + 1 - t` iterations. -/
theorem loopCount_le (isEnd : ℕ → Bool) (maxSteps : ℕ) :
    ∀ fuel t, maxSteps + 1 - t ≤ fuel → t ≤ maxSteps →
      loopCount isEnd maxSteps t ≤ maxSteps + 1 - t := by
  intro fuel
  induction fuel with
  | zero =>
    intro t h1 h2
    omega
  | succ m ih =>
    intro t h1 h2
    rw [loopCount]
    split
    · omega
    · rename_i hcond
      rw [not_or] at hcond
      have hle : t + 1 ≤ maxSteps := by omega
      have := ih (t + 1) (by omega) hle
      omega

/-- When every produced frame is near-silent, the loop started at
`t = 10 - n` runs exactly `n + 1` more iterations (the first possible
early stop is the check after the frame produced at `t = 10`). -/
theorem loopCount_all_quiet (isEnd : ℕ → Bool) (hq : ∀ u, isEnd u = true) :
    ∀ n t, t + n = 10 → loopCount isEnd 200 t = n + 1 := by
  intro n
  induction n with
  | zero =>
    intro t ht
    rw [loopCount, dif_pos (Or.inl ⟨by omega, hq t⟩)]
  | succ m ih =>
    intro t ht
    have hc : ¬((10 < t + 1 ∧ isEnd t = true) ∨ 200 < t + 1) := by
      rintro (hcon | hcon)
      · exact absurd hcon.1 (by omega)
      · omega
    rw [loopCount, dif_neg hc, ih (t + 1) (by omega)]
    omega

/-- C3: for any sequence of generated frames, incremental generation
terminates after at most `max_decoder_steps + 1 = 201` frames (the force
stop), and a model whose every output frame has all elements `≤ eps = 0.2`
generates exactly 11 frames (first possible early stop: `t > 10` with the
frame produced at step index 10). -/
theorem C3_termination (frames : ℕ → List ℚ) :
    numGeneratedFrames (fun u => is_end_of_frames (frames u)) 200 ≤ 201 ∧
    ((∀ u, is_end_of_frames (frames u) = true) →
      numGeneratedFrames (fun u => is_end_of_frames (frames u)) 200 = 11) := by
  constructor
  · have := loopCount_le (fun u => is_end_of_frames (frames u)) 200 201 0
      (by omega) (by omega)
    simpa [numGeneratedFrames] using this
  · intro hq
    have := loopCount_all_quiet (fun u => is_end_of_frames (frames u)) hq 10 0 (by omega)
    simpa [numGeneratedFrames] using this

/-- Witness for C3: a model whose every frame is the single value `1/10`
(all elements `≤ 0.2`) generates exactly 11 frames. -/
theorem C3_termination_witness :
    (∀ u : ℕ, is_end_of_frames ((fun _ : ℕ => [(1 : ℚ) / 10]) u) = true) ∧
    numGeneratedFrames
        (fun u => is_end_of_frames ((fun _ : ℕ => [(1 : ℚ) / 10]) u)) 200 = 11 :=
  ⟨fun _ => by norm_num [is_end_of_frames],
    (C3_termination (fun _ => [(1 : ℚ) / 10])).2 (fun _ => by norm_num [is_end_of_frames])⟩

/-! ### Autoregressive input and query position (lines 443-457)

The loop state mirrors the Python local variables: the counter `t`, the
variable `current_input` and the list `outputs`.  One iteration computes
`frame_pos = t + 1`, replaces `current_input` by `outputs[-1]` when
`t > 0`, produces `output = stepF current_input frame_pos` (the
convolution/attention/`fc2` stack abstracted as `stepF`), appends it, and
increments `t`. -/

structure GenLoopState where
  t : ℕ
  current_input : List ℚ
  outputs : List (List ℚ)

/-- The all-zero initial input frame of lines 444-445 (`B = 1` batch row,
`in_dim * r` entries). -/
def zeroFrame (d : ℕ) : List ℚ :=
  List.replicate d 0

/-- The input frame the iteration consumes: `outputs[-1]` when `t > 0`,
else the unchanged `current_input` (lines 446, 451-452). -/
def consumedInput (d : ℕ) (s : GenLoopState) : List ℚ :=
  if 0 < s.t then s.outputs.getLastD (zeroFrame d) else s.current_input

/-- `frame_pos` of line 448: the query positional table is indexed with
`t + 1`. -/
def framePosAt (s : GenLoopState) : ℕ :=
  s.t + 1

/-- One iteration of the generation loop body (lines 447-491), with
`stepF` abstracting the per-frame computation. -/
def genLoopStep (d : ℕ) (stepF : List ℚ → ℕ → List ℚ) (s : GenLoopState) :
    GenLoopState :=
  GenLoopState.mk (s.t + 1) (consumedInput d s)
    (s.outputs ++ [stepF (consumedInput d s) (framePosAt s)])

/-- Loop entry state: `t = 0`, `current_input = initial_input` (zeros),
no outputs. -/
def genLoopInit (d : ℕ) : GenLoopState :=
  GenLoopState.mk 0 (zeroFrame d) []

/-- State after `n` iterations of the loop. -/
def genLoopIter (d : ℕ) (stepF : List ℚ → ℕ → List ℚ) (n : ℕ) : GenLoopState :=
  (genLoopStep d stepF)^[n] (genLoopInit d)

/-- The mathematical frame sequence: frame 0 from the zero input at
position 1, frame `n + 1` from frame `n` at position `n + 2`. -/
def genOutput (d : ℕ) (stepF : List ℚ → ℕ → List ℚ) : ℕ → List ℚ
  | 0 => stepF (zeroFrame d) 1
  | n + 1 => stepF (genOutput d stepF n) (n + 2)

/-- Loop invariant: after `n` iterations the counter is `n` and the
accumulated outputs are exactly frames `0 .. n - 1`. -/
theorem genLoopIter_invariant (d : ℕ) (stepF : List ℚ → ℕ → List ℚ) :
    ∀ n, (genLoopIter d stepF n).t = n ∧
      (genLoopIter d stepF n).outputs = (List.range n).map (genOutput d stepF) := by
  intro n
  induction n with
  | zero =>
    refine ⟨rfl, ?_⟩
    simp [genLoopIter, genLoopInit]
  | succ m ih =>
    obtain ⟨iht, iho⟩ := ih
    have hstep : genLoopIter d stepF (m + 1) =
        genLoopStep d stepF (genLoopIter d stepF m) :=
      Function.iterate_succ_apply' (genLoopStep d stepF) m (genLoopInit d)
    rw [hstep]
    refine ⟨by simp [genLoopStep, iht], ?_⟩
    have hout : stepF (consumedInput d (genLoopIter d stepF m))
        (framePosAt (genLoopIter d stepF m)) = genOutput d stepF m := by
      cases m with
      | zero =>
        have hinit : genLoopIter d stepF 0 = genLoopInit d := rfl
        rw [hinit]
        simp [consumedInput, framePosAt, genLoopInit, genOutput]
      | succ m' =>
        have hci : consumedInput d (genLoopIter d stepF (m' + 1)) =
            genOutput d stepF m' := by
          unfold consumedInput
          rw [iht, iho, if_pos (by omega)]
          rw [List.range_succ, List.map_append]
          exact List.getLastD_concat _ _ _
        rw [hci, framePosAt, iht, genOutput]
    simp only [genLoopStep, hout, iho]
    rw [List.range_succ, List.map_append]
    rfl

/-- C9: at iteration `n` (0-indexed) the loop consumes the all-zero frame
when `n = 0` and the frame generated at step `n - 1` otherwise (strict
autoregression), the query positional index used is `n + 1`, and the
accumulated outputs confirm that `genOutput` is the frame sequence the
loop appends. -/
theorem C9_autoregressive (d : ℕ) (stepF : List ℚ → ℕ → List ℚ) (n : ℕ) :
    framePosAt (genLoopIter d stepF n) = n + 1 ∧
    consumedInput d (genLoopIter d stepF n) =
      (if n = 0 then zeroFrame d else genOutput d stepF (n - 1)) ∧
    (genLoopIter d stepF n).outputs = (List.range n).map (genOutput d stepF) := by
  obtain ⟨ht, ho⟩ := genLoopIter_invariant d stepF n
  refine ⟨by rw [framePosAt, ht], ?_, ho⟩
  cases n with
  | zero =>
    have hinit : genLoopIter d stepF 0 = genLoopInit d := rfl
    rw [hinit]
    simp [consumedInput, genLoopInit]
  | succ m =>
    unfold consumedInput
    rw [ht, ho, if_pos (by omega), if_neg (by omega)]
    rw [List.range_succ, List.map_append]
    simp only [Nat.add_sub_cancel]
    exact List.getLastD_concat _ _ _

/-! ### Causal convolution: batched vs incremental (C7)

The decoder calls `conv(x)` plus `conv.remove_future_timesteps(x)` in the
teacher-forced path (lines 351-352) and `conv.incremental_forward(x)` in
the incremental path (line 467); the convolution itself
(`fairseq.models.fconv.LinearizedConv1d`) is not part of this repository's
sources, so both sides are modelled from the spec.  Channels are
independent in the time structure, so one scalar channel (`ℚ` frames,
kernel `w : ℕ → ℚ` of size `k`) is embedded. -/

/-- Modelled from the spec: the input sequence as the causal convolution
sees it — `kernel_size - 1` left-padding zeros before the real frames
(spec 4.2: causal kernels use left-padding only, the symmetric right pad
being trimmed by the remove-future-timesteps step). -/
def paddedInput (k : ℕ) (x : ℕ → ℚ) : ℕ → ℚ :=
  fun i => if i < k - 1 then 0 else x (i - (k - 1))

/-- Modelled from the spec: output slice `t` of the full-sequence causal
convolution pass (spec 4.2 and 8: output at time `t` depends only on
inputs at time `≤ t`). -/
def fullConvOut (k : ℕ) (w x : ℕ → ℚ) (t : ℕ) : ℚ :=
  ∑ j ∈ Finset.range k, w j * paddedInput k x (t + j)

/-- Modelled from the spec: the convolution window at one incremental
step — the buffer of the last `kernel_size - 1` input frames followed by
the newly appended frame `f` (spec 4.2: append the new single input
frame, convolve over the buffer window). -/
def convWindow (k : ℕ) (buf : ℕ → ℚ) (f : ℚ) : ℕ → ℚ :=
  fun j => if j < k - 1 then buf j else f

/-- Modelled from the spec: the per-instance buffer before step `t`;
initially zeros, and after each step the oldest frame is evicted (the
window shifted by one). -/
def convBuffer (k : ℕ) (x : ℕ → ℚ) : ℕ → ℕ → ℚ
  | 0 => fun _ => 0
  | t + 1 => fun i => convWindow k (convBuffer k x t) (x t) (i + 1)

/-- Modelled from the spec: the single output frame returned by the
incremental variant at step `t`. -/
def incrConvOut (k : ℕ) (w x : ℕ → ℚ) (t : ℕ) : ℚ :=
  ∑ j ∈ Finset.range k, w j * convWindow k (convBuffer k x t) (x t) j

/-- Buffer invariant: before step `t`, buffer slot `i` (for
`i < kernel_size - 1`) holds padded input `t + i`. -/
theorem convBuffer_eq (k : ℕ) (x : ℕ → ℚ) :
    ∀ t i, i < k - 1 → convBuffer k x t i = paddedInput k x (t + i) := by
  intro t
  induction t with
  | zero =>
    intro i hi
    simp only [convBuffer, paddedInput, Nat.zero_add]
    rw [if_pos hi]
  | succ m ih =>
    intro i hi
    simp only [convBuffer, convWindow]
    by_cases h2 : i + 1 < k - 1
    · rw [if_pos h2, ih (i + 1) h2]
      unfold paddedInput
      by_cases h3 : m + (i + 1) < k - 1
      · rw [if_pos h3, if_pos (by omega)]
      · rw [if_neg h3, if_neg (by omega)]
        congr 1
        omega
    · rw [if_neg h2]
      unfold paddedInput
      rw [if_neg (by omega)]
      congr 1
      omega

/-- C7: for every kernel size `k`, weights, input sequence and step `t`,
the incremental-mode output at step `t` equals output slice `t` of the
full-sequence causal convolution, and that slice depends only on the
first `t + 1` input frames. -/
theorem C7_streaming_equiv (k : ℕ) (w x x' : ℕ → ℚ) (t : ℕ)
    (hagree : ∀ i, i ≤ t → x i = x' i) :
    incrConvOut k w x t = fullConvOut k w x t ∧
    fullConvOut k w x t = fullConvOut k w x' t := by
  constructor
  · unfold incrConvOut fullConvOut
    refine Finset.sum_congr rfl ?_
    intro j hj
    rw [Finset.mem_range] at hj
    congr 1
    unfold convWindow
    by_cases hjk : j < k - 1
    · rw [if_pos hjk, convBuffer_eq k x t j hjk]
    · rw [if_neg hjk]
      unfold paddedInput
      rw [if_neg (by omega)]
      congr 1
      omega
  · unfold fullConvOut
    refine Finset.sum_congr rfl ?_
    intro j hj
    rw [Finset.mem_range] at hj
    congr 1
    unfold paddedInput
    by_cases hp : t + j < k - 1
    · rw [if_pos hp, if_pos hp]
    · rw [if_neg hp, if_neg hp]
      exact hagree _ (by omega)

/-- Witness for C7 at kernel size 3, weights `j + 1`, input `n`, step 2. -/
theorem C7_streaming_equiv_witness :
    (∀ i : ℕ, i ≤ 2 → (fun n : ℕ => (n : ℚ)) i = (fun n : ℕ => (n : ℚ)) i) ∧
    (incrConvOut 3 (fun j : ℕ => (j : ℚ) + 1) (fun n : ℕ => (n : ℚ)) 2 =
        fullConvOut 3 (fun j : ℕ => (j : ℚ) + 1) (fun n : ℕ => (n : ℚ)) 2 ∧
      fullConvOut 3 (fun j : ℕ => (j : ℚ) + 1) (fun n : ℕ => (n : ℚ)) 2 =
        fullConvOut 3 (fun j : ℕ => (j : ℚ) + 1) (fun n : ℕ => (n : ℚ)) 2) :=
  ⟨fun _ _ => rfl,
    C7_streaming_equiv 3 (fun j : ℕ => (j : ℚ) + 1) (fun n : ℕ => (n : ℚ))
      (fun n : ℕ => (n : ℚ)) 2 (fun _ _ => rfl)⟩

end DeepVoice3
